import Mathlib

/-!
Shallow embedding of the scanner in `src/src/lexer.rs` (struct `Lexer` and its
methods), together with theorems checking the natural-language specification
against it.

Modelling conventions:
* The Rust `String` field `source` is modelled as a `List Char`
  (`source.chars().nth(i)` becomes `List.get?`), while Rust's `source.len()`
  is the UTF-8 *byte* length, modelled by `byteLen` below.
* Rust code that can panic (a failed `unwrap`) is modelled by the
  `Res.panicked` outcome; `Lexer::die`, which panics with a formatted
  lexical-error message, is modelled by `Res.err` carrying that message.
* The `while` loops of the Rust code are modelled with an explicit fuel
  parameter; exhausted fuel yields the distinguished outcome `Res.fuelOut`,
  which is unreachable from states the scanner actually produces (the cursor
  advances on every iteration and the unwrap fires at the end of the buffer).
  Every top-level entry point passes `source.length + 2` fuel, which is shown
  sufficient on the runs the theorems below examine.
-/

namespace Haneul

/-- UTF-8 byte size of one scalar value, as in Rust's `char::len_utf8`. -/
def utf8Size (c : Char) : Nat :=
  if c.toNat < 0x80 then 1
  else if c.toNat < 0x800 then 2
  else if c.toNat < 0x10000 then 3
  else 4

/-- Rust's `String::len` on the character list: total UTF-8 byte length. -/
def byteLen (s : List Char) : Nat := (s.map utf8Size).sum

/-- Outcome of a scanner operation: a normal result, a lexical error raised
by `Lexer::die` (carrying the full panic message), a failed `unwrap`
(`panicked`), or the model-only fuel exhaustion marker. -/
inductive Res (α : Type) where
  | ok : α → Res α
  | err : List Char → Res α
  | panicked : Res α
  | fuelOut : Res α
deriving DecidableEq

/-- `enum TokenType` from lexer.rs (the constructor names are the source's,
including the `Sting` misspelling of the string-literal kind). -/
inductive TokenType where
  | Eof | Newline | Int | Float | Ident | Sting
  | Label | Goto | Print | Input | Let | If | Then | Endif | While | Repeat | EndWhile
  | Eq | Plus | Minus | Asterisk | Slash | EqEq | NotEq | Lt | LtEq | Gt | GtEq
deriving DecidableEq

/-- `struct Token { text, kind }` from lexer.rs; the text is the lexeme. -/
structure Token where
  text : List Char
  kind : TokenType
deriving DecidableEq

/-- `struct Lexer { source, current_char, current_pos }` from lexer.rs. -/
structure Lexer where
  source : List Char
  current_char : Char
  current_pos : Nat
deriving DecidableEq

/-- `Lexer::new`: append a newline to the source, cursor at 0, current
character is the first character (the appended newline if the input was
empty, so the `unwrap` in the source never fires). -/
def Lexer.new (input : List Char) : Lexer :=
  { source := input ++ ['\n'],
    current_char := (input ++ ['\n']).headD '\n',
    current_pos := 0 }

/-- `Lexer::next_char`: increment the cursor; if the new position exceeds the
byte length the current character becomes NUL, otherwise it is
`source.chars().nth(new_pos).unwrap()` — `panicked` when that `nth` is
`None`. -/
def next_char (l : Lexer) : Res Lexer :=
  let pos := l.current_pos + 1
  if byteLen l.source < pos then
    .ok { l with current_pos := pos, current_char := '\x00' }
  else
    match l.source[pos]? with
    | some c => .ok { l with current_pos := pos, current_char := c }
    | none => .panicked

/-- `Lexer::peek`: NUL when `current_pos + 1` is at or past the byte length,
otherwise `source.chars().nth(current_pos + 1).unwrap()` — `panicked` when
that `nth` is `None`. -/
def peekR (l : Lexer) : Res Char :=
  if byteLen l.source ≤ l.current_pos + 1 then .ok '\x00'
  else
    match l.source[l.current_pos + 1]? with
    | some c => .ok c
    | none => .panicked

/-- Loop body of `Lexer::skip_whitespace`: advance while the current
character is a space, tab or carriage return. -/
def skipWsLoop : Nat → Lexer → Res Lexer
  | 0, _ => .fuelOut
  | fuel + 1, l =>
    if l.current_char = ' ' ∨ l.current_char = '\t' ∨ l.current_char = '\r' then
      match next_char l with
      | .ok l' => skipWsLoop fuel l'
      | .err m => .err m
      | .panicked => .panicked
      | .fuelOut => .fuelOut
    else .ok l

/-- `Lexer::skip_whitespace`. -/
def skip_whitespace (l : Lexer) : Res Lexer :=
  skipWsLoop (l.source.length + 2) l

/-- Loop body of `Lexer::skip_comment`: advance until the current character
is a newline. -/
def skipCommentLoop : Nat → Lexer → Res Lexer
  | 0, _ => .fuelOut
  | fuel + 1, l =>
    if l.current_char = '\n' then .ok l
    else
      match next_char l with
      | .ok l' => skipCommentLoop fuel l'
      | .err m => .err m
      | .panicked => .panicked
      | .fuelOut => .fuelOut

/-- `Lexer::skip_comment`: only entered when the current character is `#`. -/
def skip_comment (l : Lexer) : Res Lexer :=
  if l.current_char = '#' then skipCommentLoop (l.source.length + 2) l
  else .ok l

/-- String-literal loop of `Lexer::get_token`: while the current character is
not a closing quote, push it (before advancing) and advance. -/
def stringLoop : Nat → List Char → Lexer → Res (List Char × Lexer)
  | 0, _, _ => .fuelOut
  | fuel + 1, acc, l =>
    if l.current_char = '"' then .ok (acc, l)
    else
      match next_char l with
      | .ok l' => stringLoop fuel (acc ++ [l.current_char]) l'
      | .err m => .err m
      | .panicked => .panicked
      | .fuelOut => .fuelOut

/-- Numeric-literal loop of `Lexer::get_token`: while `peek()` is an ASCII
digit, or is `.` and no decimal point has been consumed yet, advance and push
the new current character, recording when it is a decimal point. -/
def numLoop : Nat → List Char → Bool → Lexer → Res (List Char × Bool × Lexer)
  | 0, _, _, _ => .fuelOut
  | fuel + 1, raw, isFloat, l =>
    match peekR l with
    | .ok pc =>
      if pc.isDigit ∨ (pc = '.' ∧ isFloat = false) then
        match next_char l with
        | .ok l' =>
          numLoop fuel (raw ++ [l'.current_char])
            (if l'.current_char = '.' then true else isFloat) l'
        | .err m => .err m
        | .panicked => .panicked
        | .fuelOut => .fuelOut
      else .ok (raw, isFloat, l)
    | .err m => .err m
    | .panicked => .panicked
    | .fuelOut => .fuelOut

/-- Identifier loop of `Lexer::get_token`: while `peek()` is alphanumeric,
advance and push the new current character. (Rust's `char::is_alphanumeric`
is Unicode-aware; the model uses the ASCII fragment, which is all the
specification and claims exercise.) -/
def identLoop : Nat → List Char → Lexer → Res (List Char × Lexer)
  | 0, _, _ => .fuelOut
  | fuel + 1, ident, l =>
    match peekR l with
    | .ok pc =>
      if pc.isAlphanum then
        match next_char l with
        | .ok l' => identLoop fuel (ident ++ [l'.current_char]) l'
        | .err m => .err m
        | .panicked => .panicked
        | .fuelOut => .fuelOut
      else .ok (ident, l)
    | .err m => .err m
    | .panicked => .panicked
    | .fuelOut => .fuelOut

/-- `Lexer::is_keyword`: the fixed keyword table, consulted after an
identifier has been fully scanned. -/
def is_keyword (t : List Char) : Option TokenType :=
  if t = "LABEL".data then some .Label
  else if t = "GOTO".data then some .Goto
  else if t = "PRINT".data then some .Print
  else if t = "INPUT".data then some .Input
  else if t = "LET".data then some .Let
  else if t = "IF".data then some .If
  else if t = "THEN".data then some .Then
  else if t = "ENDIF".data then some .Endif
  else if t = "WHILE".data then some .While
  else if t = "REPEAT".data then some .Repeat
  else if t = "ENDWHILE".data then some .EndWhile
  else none

/-- `Lexer::get_token`: skip whitespace and comments, then classify the
current character, mirroring the `match` in lexer.rs arm by arm. -/
def get_token (l0 : Lexer) : Res (Token × Lexer) :=
  match skip_whitespace l0 with
  | .err m => .err m
  | .panicked => .panicked
  | .fuelOut => .fuelOut
  | .ok l1 =>
    match skip_comment l1 with
    | .err m => .err m
    | .panicked => .panicked
    | .fuelOut => .fuelOut
    | .ok l =>
      let c := l.current_char
      if c = '+' then .ok (⟨[c], .Plus⟩, l)
      else if c = '-' then .ok (⟨[c], .Minus⟩, l)
      else if c = '*' then .ok (⟨[c], .Asterisk⟩, l)
      else if c = '/' then .ok (⟨[c], .Slash⟩, l)
      else if c = '\n' then .ok (⟨[c], .Newline⟩, l)
      else if c = '\x00' then .ok (⟨[c], .Eof⟩, l)
      else if c = '=' then
        match peekR l with
        | .ok pc =>
          if pc = '=' then
            match next_char l with
            | .ok l2 => .ok (⟨[c, l2.current_char], .EqEq⟩, l2)
            | .err m => .err m
            | .panicked => .panicked
            | .fuelOut => .fuelOut
          else .ok (⟨[c], .Eq⟩, l)
        | .err m => .err m
        | .panicked => .panicked
        | .fuelOut => .fuelOut
      else if c = '>' then
        match peekR l with
        | .ok pc =>
          if pc = '=' then
            match next_char l with
            | .ok l2 => .ok (⟨[c, l2.current_char], .GtEq⟩, l2)
            | .err m => .err m
            | .panicked => .panicked
            | .fuelOut => .fuelOut
          else .ok (⟨[c], .Gt⟩, l)
        | .err m => .err m
        | .panicked => .panicked
        | .fuelOut => .fuelOut
      else if c = '<' then
        match peekR l with
        | .ok pc =>
          if pc = '=' then
            match next_char l with
            | .ok l2 => .ok (⟨[c, l2.current_char], .LtEq⟩, l2)
            | .err m => .err m
            | .panicked => .panicked
            | .fuelOut => .fuelOut
          else .ok (⟨[c], .Lt⟩, l)
        | .err m => .err m
        | .panicked => .panicked
        | .fuelOut => .fuelOut
      else if c = '!' then
        match peekR l with
        | .ok pc =>
          if pc = '=' then
            match next_char l with
            | .ok l2 => .ok (⟨[c, l2.current_char], .NotEq⟩, l2)
            | .err m => .err m
            | .panicked => .panicked
            | .fuelOut => .fuelOut
          else .err ("Error while lexing: Expected !=, got !".data ++ [pc])
        | .err m => .err m
        | .panicked => .panicked
        | .fuelOut => .fuelOut
      else if c = '"' then
        match next_char l with
        | .ok l2 =>
          match stringLoop (l2.source.length + 2) [] l2 with
          | .ok (s, l3) => .ok (⟨s, .Sting⟩, l3)
          | .err m => .err m
          | .panicked => .panicked
          | .fuelOut => .fuelOut
        | .err m => .err m
        | .panicked => .panicked
        | .fuelOut => .fuelOut
      else if c.isDigit ∨ c = '.' then
        match numLoop (l.source.length + 2) [c] (c = '.') l with
        | .ok (raw, isFloat, l2) =>
          if isFloat then .ok (⟨raw, .Float⟩, l2)
          else .ok (⟨raw, .Int⟩, l2)
        | .err m => .err m
        | .panicked => .panicked
        | .fuelOut => .fuelOut
      else if c.isAlpha ∨ c = '_' then
        match identLoop (l.source.length + 2) [c] l with
        | .ok (ident, l2) =>
          match is_keyword ident with
          | some tt => .ok (⟨ident, tt⟩, l2)
          | none => .ok (⟨ident, .Ident⟩, l2)
        | .err m => .err m
        | .panicked => .panicked
        | .fuelOut => .fuelOut
      else .err ("Error while lexing: unknown token: ".data ++ [c])

/-- Terminal condition of a full scan of the input. -/
inductive DrainEnd where
  | done
  | lexErr : List Char → DrainEnd
  | panicked
  | fuelOut
deriving DecidableEq

/-- Modelled from the spec: the driver that pulls the token stream is not
part of src (only the scanner is); §6's output contract is a pull iterator
that requests tokens until EndOfInput. Since `get_token` leaves the cursor on
the last character of each token, the driver advances once with `next_char`
after every non-EndOfInput token, then requests the next one. -/
def drainLoop : Nat → Lexer → List Token × DrainEnd
  | 0, _ => ([], .fuelOut)
  | fuel + 1, l =>
    match get_token l with
    | .err m => ([], .lexErr m)
    | .panicked => ([], .panicked)
    | .fuelOut => ([], .fuelOut)
    | .ok (t, l') =>
      if t.kind = .Eof then ([t], .done)
      else
        match next_char l' with
        | .ok l'' =>
          let r := drainLoop fuel l''
          (t :: r.1, r.2)
        | .err _ => ([t], .panicked)
        | .panicked => ([t], .panicked)
        | .fuelOut => ([t], .fuelOut)

/-- Modelled from the spec: drain a scanner built from the given input. -/
def lexAll (input : List Char) : List Token × DrainEnd :=
  let l := Lexer.new input
  drainLoop (l.source.length + 2) l

/-- Whether an outcome is a lexical error raised by `die` (as opposed to a
normal token, an unwrap panic, or the model's fuel marker). -/
def Res.isLexError {α : Type} : Res α → Bool
  | .err _ => true
  | _ => false

/-! ## Helper lemmas about the embedding -/

lemma one_le_utf8Size (c : Char) : 1 ≤ utf8Size c := by
  unfold utf8Size
  split
  · omega
  · split
    · omega
    · split <;> omega

lemma byteLen_cons (c : Char) (t : List Char) :
    byteLen (c :: t) = utf8Size c + byteLen t := by
  simp [byteLen]

lemma length_le_byteLen : ∀ s : List Char, s.length ≤ byteLen s
  | [] => by simp [byteLen]
  | c :: t => by
    have h1 := one_le_utf8Size c
    have h2 := length_le_byteLen t
    rw [byteLen_cons, List.length_cons]
    omega

lemma drop_cons (s : List Char) (n : Nat) (c : Char) (t : List Char)
    (h : s.drop n = c :: t) :
    s[n]? = some c ∧ s.drop (n + 1) = t := by
  have hn : n < s.length := by
    by_contra hn
    push_neg at hn
    rw [List.drop_eq_nil_of_le hn] at h
    exact List.noConfusion h
  have h2 := @List.drop_eq_getElem_cons _ n s hn
  rw [h] at h2
  injection h2 with hc ht
  constructor
  · rw [List.getElem?_eq_getElem hn, hc]
  · exact ht.symm

lemma next_char_of_get (l : Lexer) (c : Char)
    (h : l.source[l.current_pos + 1]? = some c) :
    next_char l = .ok ⟨l.source, c, l.current_pos + 1⟩ := by
  have hlt : l.current_pos + 1 < l.source.length := by
    rcases List.getElem?_eq_some_iff.mp h with ⟨hh, _⟩
    exact hh
  have hb : ¬ byteLen l.source < l.current_pos + 1 := by
    have := length_le_byteLen l.source
    omega
  unfold next_char
  simp [hb, h]

lemma next_char_panics (l : Lexer)
    (h1 : l.source.length ≤ l.current_pos + 1)
    (h2 : l.current_pos + 1 ≤ byteLen l.source) :
    next_char l = .panicked := by
  have hb : ¬ byteLen l.source < l.current_pos + 1 := by omega
  have hn : l.source[l.current_pos + 1]? = none := List.getElem?_eq_none h1
  unfold next_char
  simp [hb, hn]

lemma peekR_of_get (l : Lexer) (c : Char)
    (h : l.source[l.current_pos + 1]? = some c) :
    peekR l = .ok c := by
  have hlt : l.current_pos + 1 < l.source.length := by
    rcases List.getElem?_eq_some_iff.mp h with ⟨hh, _⟩
    exact hh
  have hb : ¬ byteLen l.source ≤ l.current_pos + 1 := by
    have := length_le_byteLen l.source
    omega
  unfold peekR
  simp [hb, h]

lemma next_char_of_peekR (l : Lexer) (c : Char)
    (h : peekR l = .ok c) (hc : c ≠ '\x00') :
    next_char l = .ok ⟨l.source, c, l.current_pos + 1⟩ ∧
      l.source[l.current_pos + 1]? = some c := by
  unfold peekR at h
  by_cases hb : byteLen l.source ≤ l.current_pos + 1
  · rw [if_pos hb] at h
    injection h with h
    exact absurd h.symm hc
  · rw [if_neg hb] at h
    cases hg : l.source[l.current_pos + 1]? with
    | none => rw [hg] at h; exact absurd h (by simp)
    | some c' =>
      rw [hg] at h
      injection h with h
      subst h
      exact ⟨next_char_of_get l c' hg, rfl⟩


lemma peekR_of_next_char (l l' : Lexer) (h : next_char l = .ok l') :
    peekR l = .ok l'.current_char := by
  unfold next_char at h
  by_cases hb : byteLen l.source < l.current_pos + 1
  · rw [if_pos hb] at h
    injection h with h
    unfold peekR
    rw [if_pos (le_of_lt hb), ← h]
  · rw [if_neg hb] at h
    cases hg : l.source[l.current_pos + 1]? with
    | none => rw [hg] at h; exact absurd h (by simp)
    | some c =>
      rw [hg] at h
      injection h with h
      rw [← h]
      exact peekR_of_get l c hg

lemma skip_whitespace_nop (l : Lexer)
    (h1 : l.current_char ≠ ' ') (h2 : l.current_char ≠ '\t')
    (h3 : l.current_char ≠ '\r') :
    skip_whitespace l = .ok l := by
  unfold skip_whitespace
  rw [show l.source.length + 2 = l.source.length + 1 + 1 from rfl]
  rw [skipWsLoop]
  simp [h1, h2, h3]

lemma skip_comment_nop (l : Lexer) (h : l.current_char ≠ '#') :
    skip_comment l = .ok l := by
  unfold skip_comment
  simp [h]

lemma stringLoop_quote : ∀ (fuel : Nat) (acc : List Char) (l : Lexer)
    (s : List Char) (l' : Lexer),
    stringLoop fuel acc l = .ok (s, l') → l'.current_char = '"'
  | 0, acc, l, s, l', h => by simp [stringLoop] at h
  | fuel + 1, acc, l, s, l', h => by
    rw [stringLoop] at h
    by_cases hq : l.current_char = '"'
    · rw [if_pos hq] at h
      injection h with h
      cases h
      exact hq
    · rw [if_neg hq] at h
      cases hn : next_char l with
      | ok l2 => rw [hn] at h; exact stringLoop_quote fuel _ l2 s l' h
      | err m => rw [hn] at h; exact absurd h (by simp)
      | panicked => rw [hn] at h; exact absurd h (by simp)
      | fuelOut => rw [hn] at h; exact absurd h (by simp)

lemma numLoop_last : ∀ (fuel : Nat) (raw : List Char) (isf : Bool) (l : Lexer)
    (r : List Char) (isf' : Bool) (l' : Lexer),
    numLoop fuel raw isf l = .ok (r, isf', l') →
    raw.getLast? = some l.current_char →
    r.getLast? = some l'.current_char
  | 0, _, _, _, _, _, _, h, _ => by simp [numLoop] at h
  | fuel + 1, raw, isf, l, r, isf', l', h, hl => by
    rw [numLoop] at h
    cases hp : peekR l with
    | ok pc =>
      simp only [hp] at h
      by_cases hc : pc.isDigit ∨ (pc = '.' ∧ isf = false)
      · rw [if_pos hc] at h
        cases hn : next_char l with
        | ok l2 =>
          rw [hn] at h
          exact numLoop_last fuel _ _ l2 r isf' l' h (by simp)
        | err m => rw [hn] at h; exact absurd h (by simp)
        | panicked => rw [hn] at h; exact absurd h (by simp)
        | fuelOut => rw [hn] at h; exact absurd h (by simp)
      · rw [if_neg hc] at h
        injection h with h
        cases h
        exact hl
    | err m => rw [hp] at h; exact absurd h (by simp)
    | panicked => rw [hp] at h; exact absurd h (by simp)
    | fuelOut => rw [hp] at h; exact absurd h (by simp)

lemma identLoop_last : ∀ (fuel : Nat) (acc : List Char) (l : Lexer)
    (r : List Char) (l' : Lexer),
    identLoop fuel acc l = .ok (r, l') →
    acc.getLast? = some l.current_char →
    r.getLast? = some l'.current_char
  | 0, _, _, _, _, h, _ => by simp [identLoop] at h
  | fuel + 1, acc, l, r, l', h, hl => by
    rw [identLoop] at h
    cases hp : peekR l with
    | ok pc =>
      simp only [hp] at h
      by_cases hc : pc.isAlphanum
      · rw [if_pos hc] at h
        cases hn : next_char l with
        | ok l2 =>
          rw [hn] at h
          exact identLoop_last fuel _ l2 r l' h (by simp)
        | err m => rw [hn] at h; exact absurd h (by simp)
        | panicked => rw [hn] at h; exact absurd h (by simp)
        | fuelOut => rw [hn] at h; exact absurd h (by simp)
      · rw [if_neg hc] at h
        injection h with h
        cases h
        exact hl
    | err m => rw [hp] at h; exact absurd h (by simp)
    | panicked => rw [hp] at h; exact absurd h (by simp)
    | fuelOut => rw [hp] at h; exact absurd h (by simp)

lemma numLoop_count : ∀ (fuel : Nat) (raw : List Char) (isf : Bool) (l : Lexer)
    (r : List Char) (isf' : Bool) (l' : Lexer),
    numLoop fuel raw isf l = .ok (r, isf', l') →
    (isf = false → raw.count '.' = 0) →
    raw.count '.' ≤ 1 →
    r.count '.' ≤ 1
  | 0, _, _, _, _, _, _, h, _, _ => by simp [numLoop] at h
  | fuel + 1, raw, isf, l, r, isf', l', h, h0, h1 => by
    rw [numLoop] at h
    cases hp : peekR l with
    | ok pc =>
      simp only [hp] at h
      by_cases hc : pc.isDigit ∨ (pc = '.' ∧ isf = false)
      · rw [if_pos hc] at h
        cases hn : next_char l with
        | ok l2 =>
          rw [hn] at h
          have hpc : pc = l2.current_char := by
            have := peekR_of_next_char l l2 hn
            rw [hp] at this
            injection this
          by_cases hdot : l2.current_char = '.'
          · have hisf : isf = false := by
              rcases hc with hd | ⟨he, hf⟩
              · rw [hpc, hdot] at hd
                exact absurd hd (by decide)
              · exact hf
            have hcnt : raw.count '.' = 0 := h0 hisf
            refine numLoop_count fuel _ _ l2 r isf' l' h ?_ ?_
            · intro hfalse
              rw [hdot] at hfalse
              simp at hfalse
            · rw [List.count_append, hcnt, hdot]
              simp
          · refine numLoop_count fuel _ _ l2 r isf' l' h ?_ ?_
            · intro hfalse
              rw [if_neg hdot] at hfalse
              rw [List.count_append, h0 hfalse]
              simp [List.count_singleton, hdot]
            · rw [List.count_append]
              have : [l2.current_char].count '.' = 0 := by
                simp [List.count_singleton, hdot]
              omega
        | err m => rw [hn] at h; exact absurd h (by simp)
        | panicked => rw [hn] at h; exact absurd h (by simp)
        | fuelOut => rw [hn] at h; exact absurd h (by simp)
      · rw [if_neg hc] at h
        injection h with h
        cases h
        exact h1
    | err m => rw [hp] at h; exact absurd h (by simp)
    | panicked => rw [hp] at h; exact absurd h (by simp)
    | fuelOut => rw [hp] at h; exact absurd h (by simp)

lemma drop_eq_nil_length (s : List Char) (n : Nat) (h : s.drop n = []) :
    s.length ≤ n := by
  by_contra hlt
  push_neg at hlt
  have := @List.drop_eq_getElem_cons _ n s hlt
  rw [h] at this
  exact List.noConfusion this

lemma stringLoop_run : ∀ (body : List Char) (fuel : Nat) (acc : List Char)
    (l : Lexer) (rest : List Char),
    l.source.drop l.current_pos = body ++ '"' :: rest →
    l.current_char = (body ++ '"' :: rest).headD '"' →
    (∀ b ∈ body, b ≠ '"') →
    body.length + 1 ≤ fuel →
    stringLoop fuel acc l =
      .ok (acc ++ body, ⟨l.source, '"', l.current_pos + body.length⟩)
  | [], fuel, acc, l, rest, _, hc, _, hf => by
    obtain ⟨f, rfl⟩ : ∃ f, fuel = f + 1 := ⟨fuel - 1, by omega⟩
    rw [stringLoop]
    simp only [List.nil_append, List.headD_cons] at hc
    rw [if_pos hc]
    obtain ⟨src, ch, pos⟩ := l
    simp only at hc
    simp [hc]
  | b :: bs, fuel, acc, l, rest, hd, hc, hq, hf => by
    obtain ⟨f, rfl⟩ : ∃ f, fuel = f + 1 := ⟨fuel - 1, by omega⟩
    have hb : b ≠ '"' := hq b (List.mem_cons_self b bs)
    simp only [List.cons_append, List.headD_cons] at hc
    rw [List.cons_append] at hd
    rw [stringLoop, if_neg (by rw [hc]; exact hb)]
    obtain ⟨hg0, hd1⟩ := drop_cons _ _ _ _ hd
    cases hcons : bs ++ '"' :: rest with
    | nil => exact absurd hcons (by simp)
    | cons hd2 tl2 =>
      have hd1' := hd1
      rw [hcons] at hd1'
      obtain ⟨hg1, _⟩ := drop_cons _ _ _ _ hd1'
      simp only [next_char_of_get l hd2 hg1]
      have ih := stringLoop_run bs f (acc ++ [l.current_char])
        ⟨l.source, hd2, l.current_pos + 1⟩ rest hd1 (by rw [hcons]; rfl)
        (fun x hx => hq x (List.mem_cons_of_mem b hx))
        (by simp at hf ⊢; omega)
      rw [ih, hc]
      have hlen : l.current_pos + 1 + bs.length = l.current_pos + (bs.length + 1) := by
        omega
      simp only at hlen ⊢
      rw [hlen]
      simp

lemma stringLoop_panics : ∀ (tail : List Char) (fuel : Nat) (acc : List Char)
    (l : Lexer),
    l.source.drop l.current_pos = l.current_char :: tail →
    l.current_char ≠ '"' →
    (∀ x ∈ tail, x ≠ '"') →
    tail.length + 2 ≤ fuel →
    stringLoop fuel acc l = .panicked
  | [], fuel, acc, l, hd, hc, _, hf => by
    obtain ⟨f, rfl⟩ : ∃ f, fuel = f + 1 := ⟨fuel - 1, by omega⟩
    rw [stringLoop, if_neg hc]
    obtain ⟨hg0, hd1⟩ := drop_cons _ _ _ _ hd
    have hlen : l.source.length ≤ l.current_pos + 1 := drop_eq_nil_length _ _ hd1
    have hpos : l.current_pos < l.source.length := by
      rcases List.getElem?_eq_some_iff.mp hg0 with ⟨hh, _⟩
      exact hh
    have hbyte : l.current_pos + 1 ≤ byteLen l.source := by
      have := length_le_byteLen l.source
      omega
    rw [next_char_panics l (by omega) hbyte]
  | t :: ts, fuel, acc, l, hd, hc, hq, hf => by
    obtain ⟨f, rfl⟩ : ∃ f, fuel = f + 1 := ⟨fuel - 1, by omega⟩
    rw [stringLoop, if_neg hc]
    obtain ⟨hg0, hd1⟩ := drop_cons _ _ _ _ hd
    obtain ⟨hg1, _⟩ := drop_cons _ _ _ _ hd1
    rw [next_char_of_get l t hg1]
    exact stringLoop_panics ts f (acc ++ [l.current_char])
      ⟨l.source, t, l.current_pos + 1⟩
      (by simpa using hd1)
      (hq t (List.mem_cons_self t ts))
      (fun x hx => hq x (List.mem_cons_of_mem t hx))
      (by simp at hf ⊢; omega)

/-! ## Claim theorems -/

/-- C6: whenever the current character is `>` (resp. `=`, `<`) and the peeked
character is `=`, `get_token` consumes both characters and emits the single
two-character operator token `GtEq` (resp. `EqEq`, `LtEq`) with lexeme
`">="` (resp. `"=="`, `"<="`); the two characters are never split into a
one-character operator followed by an `Eq` token. -/
theorem c6_two_char_operators (l : Lexer) (hp : peekR l = .ok '=') :
    (l.current_char = '>' →
      get_token l = .ok (⟨['>', '='], .GtEq⟩, ⟨l.source, '=', l.current_pos + 1⟩)) ∧
    (l.current_char = '=' →
      get_token l = .ok (⟨['=', '='], .EqEq⟩, ⟨l.source, '=', l.current_pos + 1⟩)) ∧
    (l.current_char = '<' →
      get_token l = .ok (⟨['<', '='], .LtEq⟩, ⟨l.source, '=', l.current_pos + 1⟩)) := by
  have hn := (next_char_of_peekR l '=' hp (by decide)).1
  refine ⟨fun h => ?_, fun h => ?_, fun h => ?_⟩
  all_goals
    have hws := skip_whitespace_nop l (by rw [h]; decide) (by rw [h]; decide)
      (by rw [h]; decide)
  all_goals
    have hcm := skip_comment_nop l (by rw [h]; decide)
  all_goals
    unfold get_token
  all_goals
    simp [hws, hcm, h, hp, hn]

/-- C8: with the current character `!`, when the peeked character is not `=`
the scan fails with the lexical error raised by `die`, whose message names
the unexpected following character; when the peeked character is `=` both
characters are consumed and a `NotEq` token with lexeme `"!="` is emitted. -/
theorem c8_bang_requires_eq :
    (∀ (l : Lexer) (pc : Char), l.current_char = '!' → peekR l = .ok pc →
      pc ≠ '=' →
      get_token l = .err ("Error while lexing: Expected !=, got !".data ++ [pc])) ∧
    (∀ l : Lexer, l.current_char = '!' → peekR l = .ok '=' →
      get_token l = .ok (⟨['!', '='], .NotEq⟩, ⟨l.source, '=', l.current_pos + 1⟩)) := by
  constructor
  · intro l pc h hp hne
    have hws := skip_whitespace_nop l (by rw [h]; decide) (by rw [h]; decide)
      (by rw [h]; decide)
    have hcm := skip_comment_nop l (by rw [h]; decide)
    unfold get_token
    simp [hws, hcm, h, hp, hne]
  · intro l h hp
    have hn := (next_char_of_peekR l '=' hp (by decide)).1
    have hws := skip_whitespace_nop l (by rw [h]; decide) (by rw [h]; decide)
      (by rw [h]; decide)
    have hcm := skip_comment_nop l (by rw [h]; decide)
    unfold get_token
    simp [hws, hcm, h, hp, hn]

/-- C10: when the current character is one of `+`, `-`, `*`, `/`, newline or
the NUL sentinel, `get_token` returns the corresponding single-character
token and leaves the scanner state completely unchanged; a second call from
the returned state therefore yields the very same token again. -/
theorem c10_single_char_frame (l : Lexer)
    (h : l.current_char = '+' ∨ l.current_char = '-' ∨ l.current_char = '*' ∨
      l.current_char = '/' ∨ l.current_char = '\n' ∨ l.current_char = '\x00') :
    ∃ k : TokenType, get_token l = .ok (⟨[l.current_char], k⟩, l) ∧
      (l.current_char = '+' → k = .Plus) ∧ (l.current_char = '-' → k = .Minus) ∧
      (l.current_char = '*' → k = .Asterisk) ∧ (l.current_char = '/' → k = .Slash) ∧
      (l.current_char = '\n' → k = .Newline) ∧ (l.current_char = '\x00' → k = .Eof) := by
  have hws := skip_whitespace_nop l
    (by rcases h with h | h | h | h | h | h <;> rw [h] <;> decide)
    (by rcases h with h | h | h | h | h | h <;> rw [h] <;> decide)
    (by rcases h with h | h | h | h | h | h <;> rw [h] <;> decide)
  have hcm := skip_comment_nop l
    (by rcases h with h | h | h | h | h | h <;> rw [h] <;> decide)
  rcases h with h | h | h | h | h | h
  · exact ⟨.Plus, by unfold get_token; simp [hws, hcm, h], by rw [h]; decide⟩
  · exact ⟨.Minus, by unfold get_token; simp [hws, hcm, h], by rw [h]; decide⟩
  · exact ⟨.Asterisk, by unfold get_token; simp [hws, hcm, h], by rw [h]; decide⟩
  · exact ⟨.Slash, by unfold get_token; simp [hws, hcm, h], by rw [h]; decide⟩
  · exact ⟨.Newline, by unfold get_token; simp [hws, hcm, h], by rw [h]; decide⟩
  · exact ⟨.Eof, by unfold get_token; simp [hws, hcm, h], by rw [h]; decide⟩

/-- C1: the drain of the empty input produces a single `Newline` token and
then fails by an unwrap panic inside `next_char`; no `Eof` token is ever
emitted, contradicting the claimed exactly-one-EndOfInput contract. -/
theorem c1_eof_never_emitted :
    lexAll [] = ([⟨['\n'], .Newline⟩], .panicked) := by decide

/-- C2: calling `next_char` on the scanner built from the empty input (a
one-character buffer holding the appended newline) panics: the guard uses
`>` instead of `>=`, so at new position = length the code reaches
`chars().nth(len).unwrap()` on a `None`, instead of setting the NUL
sentinel. -/
theorem c2_next_char_panics_at_end :
    next_char (Lexer.new []) = .panicked := by decide

/-- C9: scanning depends only on the source text: two scanners constructed
from the same input and drained produce identical token sequences (the
scanner touches no external state, so the drain is a pure function of the
input). -/
theorem c9_deterministic (inp : List Char) (inp' : List Char) (h : inp = inp') :
    lexAll inp = lexAll inp' := by rw [h]

theorem c9_deterministic_witness :
    lexAll "LET x = 5".data = lexAll "LET x = 5".data :=
  c9_deterministic "LET x = 5".data "LET x = 5".data rfl

/-- C3 counterexample: on input `"+"` the scan of the `Plus` token leaves the
scanner state completely unchanged — the cursor stays at position 0, the
position of the consumed `+` itself, not at the first character after the
token (the claim would require the next call to see the following newline). -/
theorem c3_cursor_not_after_cex :
    get_token (Lexer.new ['+']) = .ok (⟨['+'], .Plus⟩, Lexer.new ['+']) ∧
    (Lexer.new ['+']).current_pos = 0 ∧
    (Lexer.new ['+']).source = ['+', '\n'] := by decide

/-- C4 counterexample: scanning the source `"100%"` yields a string token
whose lexeme is exactly `100%` — the `%` is NOT re-emitted as the
two-character escape `\%` claimed by the spec (the copy loop in lexer.rs
pushes every character verbatim). -/
theorem c4_no_escaping_cex :
    get_token (Lexer.new "\"100%\"".data) =
      .ok (⟨"100%".data, .Sting⟩, ⟨"\"100%\"\n".data, '"', 5⟩) ∧
    "100%".data ≠ "100\\%".data := by decide

/-- C4 (amended): every character of a string-literal body is copied into
the lexeme verbatim, with no escaping of `%` or backslash: if the characters
after the opening quote are `body` (quote-free) followed by a closing quote,
the emitted `Sting` token's lexeme is exactly `body`, and the cursor rests on
the closing quote. -/
theorem c4_verbatim_copy (l : Lexer) (body rest : List Char)
    (hc : l.current_char = '"')
    (hd : l.source.drop (l.current_pos + 1) = body ++ '"' :: rest)
    (hq : ∀ b ∈ body, b ≠ '"') :
    get_token l =
      .ok (⟨body, .Sting⟩, ⟨l.source, '"', l.current_pos + 1 + body.length⟩) := by
  have hws := skip_whitespace_nop l (by rw [hc]; decide) (by rw [hc]; decide)
    (by rw [hc]; decide)
  have hcm := skip_comment_nop l (by rw [hc]; decide)
  have hfuel : body.length + 1 ≤ l.source.length + 2 := by
    have := congrArg List.length hd
    simp [List.length_drop] at this
    omega
  cases hbody : body ++ '"' :: rest with
  | nil => exact absurd hbody (by simp)
  | cons hd2 tl2 =>
    have hd' := hd
    rw [hbody] at hd'
    obtain ⟨hg1, _⟩ := drop_cons _ _ _ _ hd'
    have hn := next_char_of_get l hd2 hg1
    have hrun := stringLoop_run body (l.source.length + 2) []
      ⟨l.source, hd2, l.current_pos + 1⟩ rest hd (by rw [hbody]; rfl) hq hfuel
    unfold get_token
    simp only [hws, hcm, hc, hn, hrun]
    simp [hrun]

theorem c4_verbatim_copy_witness :
    get_token (Lexer.new "\"100%\"".data) =
      .ok (⟨"100%".data, .Sting⟩, ⟨"\"100%\"\n".data, '"', 5⟩) := by
  have h := c4_verbatim_copy (Lexer.new "\"100%\"".data) "100%".data ['\n']
    (by decide) (by decide) (by decide)
  exact h

/-- C5 counterexample: on the unterminated string literal `"abc` the scan
ends in an unwrap panic inside `next_char` — it is not a lexical error value
at all (the code has no `UnterminatedString` error kind). -/
theorem c5_unterminated_cex :
    get_token (Lexer.new "\"abc".data) = .panicked ∧
    (get_token (Lexer.new "\"abc".data)).isLexError = false := by decide

/-- C5 (amended): when the opening quote is never matched before the end of
the buffer, the scan fails — but by the unwrap panic in `next_char` once the
cursor passes the end of the source, not by an `UnterminatedString` lexical
error, which does not exist in the code. It does stop rather than reading
past the buffer. -/
theorem c5_unterminated_panics (l : Lexer) (tail : List Char)
    (hc : l.current_char = '"')
    (hd : l.source.drop l.current_pos = '"' :: tail)
    (hq : ∀ x ∈ tail, x ≠ '"') :
    get_token l = .panicked := by
  have hws := skip_whitespace_nop l (by rw [hc]; decide) (by rw [hc]; decide)
    (by rw [hc]; decide)
  have hcm := skip_comment_nop l (by rw [hc]; decide)
  obtain ⟨hg0, hd1⟩ := drop_cons _ _ _ _ hd
  cases tail with
  | nil =>
    have hlen : l.source.length ≤ l.current_pos + 1 := drop_eq_nil_length _ _ hd1
    have hpos : l.current_pos < l.source.length := by
      rcases List.getElem?_eq_some_iff.mp hg0 with ⟨hh, _⟩
      exact hh
    have hn := next_char_panics l hlen
      (by have := length_le_byteLen l.source; omega)
    unfold get_token
    simp [hws, hcm, hc, hn]
  | cons t ts =>
    obtain ⟨hg1, _⟩ := drop_cons _ _ _ _ hd1
    have hn := next_char_of_get l t hg1
    have hfuel : ts.length + 2 ≤ l.source.length + 2 := by
      have := congrArg List.length hd1
      simp [List.length_drop] at this
      omega
    have hpan := stringLoop_panics ts (l.source.length + 2) []
      ⟨l.source, t, l.current_pos + 1⟩ hd1 (hq t (List.mem_cons_self t ts))
      (fun x hx => hq x (List.mem_cons_of_mem t hx)) hfuel
    unfold get_token
    simp [hws, hcm, hc, hn, hpan]

theorem c5_unterminated_panics_witness :
    get_token (Lexer.new "\"abc".data) = .panicked :=
  c5_unterminated_panics (Lexer.new "\"abc".data) "abc\n".data
    (by decide) (by decide) (by decide)

theorem c6_two_char_operators_witness :
    get_token (Lexer.new ['>', '=']) =
      .ok (⟨['>', '='], .GtEq⟩, ⟨['>', '=', '\n'], '=', 1⟩) := by
  have h := (c6_two_char_operators (Lexer.new ['>', '=']) (by decide)).1 (by decide)
  exact h

theorem c8_bang_requires_eq_witness :
    get_token (Lexer.new ['!', 'a']) =
      .err ("Error while lexing: Expected !=, got !".data ++ ['a']) ∧
    get_token (Lexer.new ['!', '=']) =
      .ok (⟨['!', '='], .NotEq⟩, ⟨['!', '=', '\n'], '=', 1⟩) := by
  constructor
  · exact c8_bang_requires_eq.1 (Lexer.new ['!', 'a']) 'a' (by decide) (by decide)
      (by decide)
  · exact c8_bang_requires_eq.2 (Lexer.new ['!', '=']) (by decide) (by decide)

theorem c10_single_char_frame_witness :
    get_token (Lexer.new ['+']) = .ok (⟨['+'], .Plus⟩, Lexer.new ['+']) := by
  obtain ⟨k, hk, himp⟩ := c10_single_char_frame (Lexer.new ['+']) (Or.inl rfl)
  rw [himp.1 rfl] at hk
  exact hk

lemma digit_dot_ne (c : Char) (h : c.isDigit ∨ c = '.') :
    c ≠ ' ' ∧ c ≠ '\t' ∧ c ≠ '\r' ∧ c ≠ '#' ∧ c ≠ '+' ∧ c ≠ '-' ∧ c ≠ '*' ∧
    c ≠ '/' ∧ c ≠ '\n' ∧ c ≠ '\x00' ∧ c ≠ '=' ∧ c ≠ '>' ∧ c ≠ '<' ∧ c ≠ '!' ∧
    c ≠ '"' := by
  rcases h with h | h
  · refine ⟨?_, ?_, ?_, ?_, ?_, ?_, ?_, ?_, ?_, ?_, ?_, ?_, ?_, ?_, ?_⟩ <;>
      (intro e; rw [e] at h; exact absurd h (by decide))
  · subst h
    decide

/-- C7: a numeric literal contains at most one decimal point: whenever
`get_token` starts on a digit or a dot and succeeds, the emitted lexeme holds
at most one `.` (a second dot merely stops the scan); in particular the input
`3.14.5` lexes as `Float "3.14"` followed by `Float ".5"`. -/
theorem c7_single_decimal_point :
    (∀ (l : Lexer) (t : Token) (l' : Lexer),
      (l.current_char.isDigit ∨ l.current_char = '.') →
      get_token l = .ok (t, l') → t.text.count '.' ≤ 1) ∧
    (lexAll "3.14.5".data).1.take 2 =
      [⟨"3.14".data, .Float⟩, ⟨".5".data, .Float⟩] := by
  constructor
  · intro l t l' hC h
    obtain ⟨w1, w2, w3, w4, n1, n2, n3, n4, n5, n6, n7, n8, n9, n10, n11⟩ :=
      digit_dot_ne l.current_char hC
    have hws := skip_whitespace_nop l w1 w2 w3
    have hcm := skip_comment_nop l w4
    unfold get_token at h
    simp only [hws, hcm] at h
    rw [if_neg n1, if_neg n2, if_neg n3, if_neg n4, if_neg n5, if_neg n6,
      if_neg n7, if_neg n8, if_neg n9, if_neg n10, if_neg n11, if_pos hC] at h
    cases hnum : numLoop (l.source.length + 2) [l.current_char]
        (decide (l.current_char = '.')) l with
    | ok p =>
      obtain ⟨raw, isf, l3⟩ := p
      rw [hnum] at h
      simp only at h
      have hcnt : raw.count '.' ≤ 1 := by
        refine numLoop_count _ _ _ _ _ _ _ hnum ?_ ?_
        · intro hfalse
          by_cases hcd : l.current_char = '.'
          · rw [hcd] at hfalse
            simp at hfalse
          · simp [List.count_cons, hcd]
        · by_cases hcd : l.current_char = '.'
          · simp [hcd]
          · simp [List.count_cons, hcd]
      cases isf with
      | true =>
        rw [if_pos rfl] at h
        injection h with h
        injection h with ht hl
        rw [← ht]
        exact hcnt
      | false =>
        rw [if_neg (by decide)] at h
        injection h with h
        injection h with ht hl
        rw [← ht]
        exact hcnt
    | err m => rw [hnum] at h; exact absurd h (by simp)
    | panicked => rw [hnum] at h; exact absurd h (by simp)
    | fuelOut => rw [hnum] at h; exact absurd h (by simp)
  · decide

theorem c7_single_decimal_point_witness :
    (⟨"3.14".data, TokenType.Float⟩ : Token).text.count '.' ≤ 1 := by
  have h := c7_single_decimal_point.1 (Lexer.new "3.14.5".data)
    ⟨"3.14".data, .Float⟩ ⟨"3.14.5\n".data, '4', 3⟩ (by decide) (by decide)
  exact h

/-- C3 (amended): a successful `get_token` call does NOT leave the cursor at
the first character after the consumed token; it leaves it ON the token's
last character: the returned state's current character is the final character
of the lexeme (for string literals, the closing quote). The caller must
advance once before the next call. -/
theorem c3_cursor_on_last_char (l : Lexer) (t : Token) (l' : Lexer)
    (h : get_token l = .ok (t, l')) :
    (t.kind = .Sting ∧ l'.current_char = '"') ∨
      t.text.getLast? = some l'.current_char := by
  unfold get_token at h
  cases hws : skip_whitespace l with
  | err m => rw [hws] at h; exact absurd h (by simp)
  | panicked => rw [hws] at h; exact absurd h (by simp)
  | fuelOut => rw [hws] at h; exact absurd h (by simp)
  | ok l1 =>
    simp only [hws] at h
    cases hcm : skip_comment l1 with
    | err m => rw [hcm] at h; exact absurd h (by simp)
    | panicked => rw [hcm] at h; exact absurd h (by simp)
    | fuelOut => rw [hcm] at h; exact absurd h (by simp)
    | ok l2 =>
      simp only [hcm] at h
      by_cases h1 : l2.current_char = '+'
      · rw [if_pos h1] at h
        injection h with h
        injection h with ht hl
        subst ht
        subst hl
        exact Or.inr rfl
      rw [if_neg h1] at h
      by_cases h2 : l2.current_char = '-'
      · rw [if_pos h2] at h
        injection h with h
        injection h with ht hl
        subst ht
        subst hl
        exact Or.inr rfl
      rw [if_neg h2] at h
      by_cases h3 : l2.current_char = '*'
      · rw [if_pos h3] at h
        injection h with h
        injection h with ht hl
        subst ht
        subst hl
        exact Or.inr rfl
      rw [if_neg h3] at h
      by_cases h4 : l2.current_char = '/'
      · rw [if_pos h4] at h
        injection h with h
        injection h with ht hl
        subst ht
        subst hl
        exact Or.inr rfl
      rw [if_neg h4] at h
      by_cases h5 : l2.current_char = '\n'
      · rw [if_pos h5] at h
        injection h with h
        injection h with ht hl
        subst ht
        subst hl
        exact Or.inr rfl
      rw [if_neg h5] at h
      by_cases h6 : l2.current_char = '\x00'
      · rw [if_pos h6] at h
        injection h with h
        injection h with ht hl
        subst ht
        subst hl
        exact Or.inr rfl
      rw [if_neg h6] at h
      by_cases h7 : l2.current_char = '='
      · rw [if_pos h7] at h
        cases hp : peekR l2 with
        | ok pc =>
          simp only [hp] at h
          by_cases hpe : pc = '='
          · rw [if_pos hpe] at h
            cases hnc : next_char l2 with
            | ok l3 =>
              simp only [hnc] at h
              injection h with h
              injection h with ht hl
              subst ht
              subst hl
              exact Or.inr rfl
            | err m => rw [hnc] at h; exact absurd h (by simp)
            | panicked => rw [hnc] at h; exact absurd h (by simp)
            | fuelOut => rw [hnc] at h; exact absurd h (by simp)
          · rw [if_neg hpe] at h
            injection h with h
            injection h with ht hl
            subst ht
            subst hl
            exact Or.inr rfl
        | err m => rw [hp] at h; exact absurd h (by simp)
        | panicked => rw [hp] at h; exact absurd h (by simp)
        | fuelOut => rw [hp] at h; exact absurd h (by simp)
      rw [if_neg h7] at h
      by_cases h8 : l2.current_char = '>'
      · rw [if_pos h8] at h
        cases hp : peekR l2 with
        | ok pc =>
          simp only [hp] at h
          by_cases hpe : pc = '='
          · rw [if_pos hpe] at h
            cases hnc : next_char l2 with
            | ok l3 =>
              simp only [hnc] at h
              injection h with h
              injection h with ht hl
              subst ht
              subst hl
              exact Or.inr rfl
            | err m => rw [hnc] at h; exact absurd h (by simp)
            | panicked => rw [hnc] at h; exact absurd h (by simp)
            | fuelOut => rw [hnc] at h; exact absurd h (by simp)
          · rw [if_neg hpe] at h
            injection h with h
            injection h with ht hl
            subst ht
            subst hl
            exact Or.inr rfl
        | err m => rw [hp] at h; exact absurd h (by simp)
        | panicked => rw [hp] at h; exact absurd h (by simp)
        | fuelOut => rw [hp] at h; exact absurd h (by simp)
      rw [if_neg h8] at h
      by_cases h9 : l2.current_char = '<'
      · rw [if_pos h9] at h
        cases hp : peekR l2 with
        | ok pc =>
          simp only [hp] at h
          by_cases hpe : pc = '='
          · rw [if_pos hpe] at h
            cases hnc : next_char l2 with
            | ok l3 =>
              simp only [hnc] at h
              injection h with h
              injection h with ht hl
              subst ht
              subst hl
              exact Or.inr rfl
            | err m => rw [hnc] at h; exact absurd h (by simp)
            | panicked => rw [hnc] at h; exact absurd h (by simp)
            | fuelOut => rw [hnc] at h; exact absurd h (by simp)
          · rw [if_neg hpe] at h
            injection h with h
            injection h with ht hl
            subst ht
            subst hl
            exact Or.inr rfl
        | err m => rw [hp] at h; exact absurd h (by simp)
        | panicked => rw [hp] at h; exact absurd h (by simp)
        | fuelOut => rw [hp] at h; exact absurd h (by simp)
      rw [if_neg h9] at h
      by_cases h10 : l2.current_char = '!'
      · rw [if_pos h10] at h
        cases hp : peekR l2 with
        | ok pc =>
          simp only [hp] at h
          by_cases hpe : pc = '='
          · rw [if_pos hpe] at h
            cases hnc : next_char l2 with
            | ok l3 =>
              simp only [hnc] at h
              injection h with h
              injection h with ht hl
              subst ht
              subst hl
              exact Or.inr rfl
            | err m => rw [hnc] at h; exact absurd h (by simp)
            | panicked => rw [hnc] at h; exact absurd h (by simp)
            | fuelOut => rw [hnc] at h; exact absurd h (by simp)
          · rw [if_neg hpe] at h
            exact absurd h (by simp)
        | err m => rw [hp] at h; exact absurd h (by simp)
        | panicked => rw [hp] at h; exact absurd h (by simp)
        | fuelOut => rw [hp] at h; exact absurd h (by simp)
      rw [if_neg h10] at h
      by_cases h11 : l2.current_char = '"'
      · rw [if_pos h11] at h
        cases hnc : next_char l2 with
        | ok l3 =>
          simp only [hnc] at h
          cases hs : stringLoop (l3.source.length + 2) [] l3 with
          | ok p =>
            obtain ⟨s, l4⟩ := p
            simp only [hs] at h
            injection h with h
            injection h with ht hl
            subst ht
            subst hl
            exact Or.inl ⟨rfl, stringLoop_quote _ _ _ _ _ hs⟩
          | err m => rw [hs] at h; exact absurd h (by simp)
          | panicked => rw [hs] at h; exact absurd h (by simp)
          | fuelOut => rw [hs] at h; exact absurd h (by simp)
        | err m => rw [hnc] at h; exact absurd h (by simp)
        | panicked => rw [hnc] at h; exact absurd h (by simp)
        | fuelOut => rw [hnc] at h; exact absurd h (by simp)
      rw [if_neg h11] at h
      by_cases h12 : l2.current_char.isDigit ∨ l2.current_char = '.'
      · rw [if_pos h12] at h
        cases hnum : numLoop (l2.source.length + 2) [l2.current_char]
            (decide (l2.current_char = '.')) l2 with
        | ok p =>
          obtain ⟨raw, isf, l3⟩ := p
          simp only [hnum] at h
          have hlast : raw.getLast? = some l3.current_char :=
            numLoop_last _ _ _ _ _ _ _ hnum rfl
          cases isf with
          | true =>
            rw [if_pos rfl] at h
            injection h with h
            injection h with ht hl
            subst ht
            subst hl
            exact Or.inr hlast
          | false =>
            rw [if_neg (by decide)] at h
            injection h with h
            injection h with ht hl
            subst ht
            subst hl
            exact Or.inr hlast
        | err m => rw [hnum] at h; exact absurd h (by simp)
        | panicked => rw [hnum] at h; exact absurd h (by simp)
        | fuelOut => rw [hnum] at h; exact absurd h (by simp)
      rw [if_neg h12] at h
      by_cases h13 : l2.current_char.isAlpha ∨ l2.current_char = '_'
      · rw [if_pos h13] at h
        cases hid : identLoop (l2.source.length + 2) [l2.current_char] l2 with
        | ok p =>
          obtain ⟨idt, l3⟩ := p
          simp only [hid] at h
          have hlast : idt.getLast? = some l3.current_char :=
            identLoop_last _ _ _ _ _ hid rfl
          cases hk : is_keyword idt with
          | some tt =>
            simp only [hk] at h
            injection h with h
            injection h with ht hl
            subst ht
            subst hl
            exact Or.inr hlast
          | none =>
            simp only [hk] at h
            injection h with h
            injection h with ht hl
            subst ht
            subst hl
            exact Or.inr hlast
        | err m => rw [hid] at h; exact absurd h (by simp)
        | panicked => rw [hid] at h; exact absurd h (by simp)
        | fuelOut => rw [hid] at h; exact absurd h (by simp)
      rw [if_neg h13] at h
      exact absurd h (by simp)

theorem c3_cursor_on_last_char_witness :
    ((⟨['1', '2'], TokenType.Int⟩ : Token).kind = TokenType.Sting ∧
      (⟨"12\n".data, '2', 1⟩ : Lexer).current_char = '"') ∨
    (⟨['1', '2'], TokenType.Int⟩ : Token).text.getLast? =
      some (⟨"12\n".data, '2', 1⟩ : Lexer).current_char :=
  c3_cursor_on_last_char (Lexer.new "12".data) ⟨['1', '2'], .Int⟩
    ⟨"12\n".data, '2', 1⟩ (by decide)

end Haneul
